import Mathlib

/-!
# Verification of the meownder-backend Concurrent Deduplicated Batch Generator

Shallow embedding of the batch-generation core of the repository
`ChrisTheAbysswalker/meownder-backend`:

* `generateCatURL` (services/cat_service.go, lines 159-177): the Reference
  Synthesizer.  Its two ambient inputs (wall-clock timestamp and the
  crypto/rand draw) are made explicit parameters; a failed entropy read is
  modelled as `none`, which the source replaces by `big.NewInt(0)`.
* `cleanCache` (services/cat_service.go, lines 193-201): wholesale cache
  eviction once the recent-URL set exceeds 50 entries.
* `GenerateCatURLs` (services/cat_service.go, lines 102-157): the Batch
  Coordinator.  The `count` concurrent worker goroutines are embedded as a
  small-step interleaving machine: each worker is a program over the phases
  `checking r → inserting u → appending u → doneOk` (or `doneFail` after the
  retry budget), and each phase transition corresponds to one lock-protected
  atomic region of the source (the `RLock` membership check, the `Lock`ed
  insert, the `urlMutex`-guarded append).  A schedule (list of worker
  indices) chooses the interleaving; `wg.Wait()` corresponds to restricting
  attention to schedules after which every worker is terminal.  The
  per-attempt candidate produced by `s.generateCatURL()` is abstracted by an
  oracle `gen : worker → attempt → String`.
* the batch-sequence critical section (services/cat_service.go, lines
  103-106): embedded separately as a machine `cstep` in which the
  `countMutex.Lock / batchCount++ / currentBatch := batchCount / Unlock`
  statements of two concurrent calls are individual atomic events, so that
  mutual exclusion is proved, not assumed.
* `GetBatchCount` (services/cat_service.go, lines 203-207).
* `parseCount` (handlers/cat_handler.go, lines 94-101): the `count` query
  parameter handling of `GetCats`, with `strconv.Atoi` embedded as `atoi`.
-/

namespace Meownder

/-- Pointwise update of a function `Nat → α` at one index; used for the
per-worker state tables of the interleaving machines. -/
def upd {α : Type} (f : Nat → α) (i : Nat) (a : α) : Nat → α :=
  fun j => if j = i then a else f j

/-- The `CatURL` record of main.go / the models package: an address, a local
identifier and a creation timestamp. -/
structure CatURL where
  url : String
  id : String
  timestamp : Int
deriving DecidableEq, Repr

/-- The Reference Synthesizer `generateCatURL` (services/cat_service.go,
lines 159-177).  `timestamp` is the ambient `time.Now().UnixNano()` value and
`entropy` the result of `rand.Int(rand.Reader, big.NewInt(1000000))`: `none`
models the error branch, which the source replaces by `big.NewInt(0)`. -/
def generateCatURL (timestamp : Int) (entropy : Option Nat) : CatURL :=
  let baseURL := "https://cataas.com/cat"
  let randNum : Nat :=
    match entropy with
    | some r => r
    | none => 0
  { url := baseURL ++ "?timestamp=" ++ toString timestamp ++ "&rand=" ++ toString randNum,
    id := "cat-" ++ toString timestamp ++ "-" ++ toString randNum,
    timestamp := timestamp }

/-- The cross-call mutable state of `CatService` relevant to the generator:
the Recent-History Cache `recentURLs` (a Go `map[string]bool` used as a set)
and the Batch Sequence Counter `batchCount`. -/
structure SvcState where
  recentURLs : Finset String
  batchCount : Nat
deriving DecidableEq

/-- `cleanCache` (services/cat_service.go, lines 193-201): under the cache
lock, if the recent-URL set holds more than 50 entries replace it by a fresh
empty map, otherwise do nothing. -/
def cleanCache (st : SvcState) : SvcState :=
  if 50 < st.recentURLs.card then { st with recentURLs := ∅ } else st

/-- `GetBatchCount` (services/cat_service.go, lines 203-207): read the batch
counter under `countMutex`. -/
def GetBatchCount (st : SvcState) : Nat :=
  st.batchCount

/-- Control state of one worker goroutine of `GenerateCatURLs`
(services/cat_service.go, lines 116-142): about to run attempt `retry` of the
for-loop; between the passed membership check and the `Lock`ed insert;
between the insert and the `urlMutex`-guarded append; exited the loop via
`break` (admitted); or exhausted the retry budget. -/
inductive WPhase where
  | checking (retry : Nat)
  | inserting (url : String)
  | appending (url : String)
  | doneOk
  | doneFail
deriving DecidableEq, Repr

/-- In-flight state of one `GenerateCatURLs` call: the shared cache and
result slice plus each worker's control phase and how many synthesis
attempts (`s.generateCatURL()` calls) it has made. -/
structure BatchState where
  cache : Finset String
  urls : List String
  phases : Nat → WPhase
  tries : Nat → Nat

/-- Worker pool at the start of a batch: every worker is about to run
attempt 0 and the result slice is empty ( `urls := make([]string, 0, count)` ). -/
def initBatch (cache0 : Finset String) : BatchState :=
  { cache := cache0, urls := [], phases := fun _ => WPhase.checking 0,
    tries := fun _ => 0 }

/-- One atomic event of worker `wi`, embedded from the goroutine body at
services/cat_service.go lines 119-141.  A `checking r` step evaluates the
loop guard `retry < maxRetries`, synthesizes the candidate `gen wi r` and
performs the `RLock`-guarded membership check: a hit either retries or, on
the last attempt, exits the loop; a miss moves to the `Lock`ed insert.  An
`inserting` step performs `recentURLs[url] = true`; an `appending` step
performs `urls = append(urls, url)` and the `break`.  Terminal workers and
indices outside the pool do nothing.  The `time.Sleep(100ms)` between
attempts has no state effect and is absorbed into scheduling. -/
def wstep (gen : Nat → Nat → String) (count : Nat) (s : BatchState) (wi : Nat) :
    BatchState :=
  if wi < count then
    match s.phases wi with
    | WPhase.checking r =>
      if r < 3 then
        let u := gen wi r
        if u ∈ s.cache then
          { s with
            phases := upd s.phases wi
              (if r + 1 < 3 then WPhase.checking (r + 1) else WPhase.doneFail),
            tries := upd s.tries wi (s.tries wi + 1) }
        else
          { s with
            phases := upd s.phases wi (WPhase.inserting u),
            tries := upd s.tries wi (s.tries wi + 1) }
      else
        { s with phases := upd s.phases wi WPhase.doneFail }
    | WPhase.inserting u =>
      { s with
        cache := insert u s.cache,
        phases := upd s.phases wi (WPhase.appending u) }
    | WPhase.appending u =>
      { s with
        urls := s.urls ++ [u],
        phases := upd s.phases wi WPhase.doneOk }
    | WPhase.doneOk => s
    | WPhase.doneFail => s
  else s

/-- Run the worker pool under a given interleaving. -/
def runWorkers (gen : Nat → Nat → String) (count : Nat) (s : BatchState)
    (sched : List Nat) : BatchState :=
  sched.foldl (wstep gen count) s

/-- A worker phase from which the goroutine has returned. -/
def isTerminal (ph : WPhase) : Prop :=
  ph = WPhase.doneOk ∨ ph = WPhase.doneFail

instance (ph : WPhase) : Decidable (isTerminal ph) := by
  unfold isTerminal; infer_instance

/-- The schedule has driven every worker of the pool to completion: the
condition under which `wg.Wait()` (line 145) returns and the tail of
`GenerateCatURLs` runs. -/
def Completes (gen : Nat → Nat → String) (count : Nat) (cache0 : Finset String)
    (sched : List Nat) : Prop :=
  ∀ wi, wi < count →
    isTerminal ((runWorkers gen count (initBatch cache0) sched).phases wi)

instance (gen : Nat → Nat → String) (count : Nat) (cache0 : Finset String)
    (sched : List Nat) : Decidable (Completes gen count cache0 sched) := by
  unfold Completes; infer_instance

/-- No two worker attempts of the batch synthesize the same address: the
clock/entropy coincidence needed for the check-then-insert race is absent. -/
def InjectiveCandidates (gen : Nat → Nat → String) (count : Nat) : Prop :=
  ∀ p ∈ (List.range count).product (List.range 3),
    ∀ q ∈ (List.range count).product (List.range 3),
      gen p.1 p.2 = gen q.1 q.2 → p = q

instance (gen : Nat → Nat → String) (count : Nat) :
    Decidable (InjectiveCandidates gen count) := by
  unfold InjectiveCandidates; infer_instance

/-- The value triple returned by `GenerateCatURLs`: on the error path the
source returns `nil, 0, fmt.Errorf(...)`, on success `urls, currentBatch, nil`. -/
structure GenOutput where
  urls : List String
  batch : Nat
  error : Option String
deriving DecidableEq, Repr

/-- Returned values plus the externally visible effects of one
`GenerateCatURLs` call: the new service state and whether a detached
`go s.cleanCache()` was spawned (the call itself never waits on it, so the
returned cache is the workers' cache, with no eviction applied). -/
structure GenResult where
  output : GenOutput
  state : SvcState
  evictionTriggered : Bool
deriving DecidableEq

/-- `GenerateCatURLs` (services/cat_service.go, lines 102-157): increment and
capture the batch counter under `countMutex`; run the `count` workers under
the interleaving `sched`; if `currentBatch` is a multiple of 10 spawn the
detached eviction sweep; fail with the no-images error when the assembled
slice is empty, otherwise return it with `currentBatch`. -/
def GenerateCatURLs (gen : Nat → Nat → String) (sched : List Nat) (count : Nat)
    (st : SvcState) : GenResult :=
  let currentBatch := st.batchCount + 1
  let s1 := runWorkers gen count (initBatch st.recentURLs) sched
  let out : GenOutput :=
    if s1.urls = [] then
      { urls := [], batch := 0, error := some "no se pudieron obtener imágenes de gatos" }
    else
      { urls := s1.urls, batch := currentBatch, error := none }
  { output := out,
    state := { recentURLs := s1.cache, batchCount := currentBatch },
    evictionTriggered := currentBatch % 10 == 0 }

/-- Inputs of one `GenerateCatURLs` call in a sequence of calls: its
candidate oracle, its worker interleaving and the requested count. -/
structure CallSpec where
  gen : Nat → Nat → String
  sched : List Nat
  count : Nat

/-- Run a sequence of `GenerateCatURLs` calls, threading the service state. -/
def runCalls (specs : List CallSpec) (st : SvcState) : List GenOutput × SvcState :=
  match specs with
  | [] => ([], st)
  | c :: rest =>
    let R := GenerateCatURLs c.gen c.sched c.count st
    let tail := runCalls rest R.state
    (R.output :: tail.1, tail.2)

/-- Value of a non-empty all-digit string, the digit loop of `strconv.Atoi`. -/
def digitsVal (cs : List Char) : Option Nat :=
  if cs.isEmpty then none
  else
    cs.foldl
      (fun acc c =>
        match acc with
        | none => none
        | some n => if c.isDigit then some (n * 10 + (c.toNat - 48)) else none)
      (some 0)

/-- `strconv.Atoi`: an optional sign followed by at least one digit; anything
else is an error (`none`).  (Go's overflow error is not modelled: any value
it would reject is out of the 1..10 window anyway and leads to the same
default.) -/
def atoi (s : String) : Option Int :=
  match s.data with
  | '-' :: rest => (digitsVal rest).map (fun n => -(n : Int))
  | '+' :: rest => (digitsVal rest).map (fun n => (n : Int))
  | cs => (digitsVal cs).map (fun n => (n : Int))

/-- Invariant of the worker machine, relating each worker's control phase to
the shared cache, the result slice and the retry counter.  It holds at
`initBatch` and is preserved by every event of every interleaving. -/
structure Inv (gen : Nat → Nat → String) (count : Nat) (cache0 : Finset String)
    (s : BatchState) : Prop where
  cacheMono : cache0 ⊆ s.cache
  outOfRange : ∀ wi, ¬ wi < count → s.phases wi = WPhase.checking 0
  candOk : ∀ wi u, s.phases wi = WPhase.inserting u ∨ s.phases wi = WPhase.appending u →
    ∃ r, r < 3 ∧ u = gen wi r ∧ u ∉ cache0
  appendMem : ∀ wi u, s.phases wi = WPhase.appending u → u ∈ s.cache
  urlsOk : ∀ u, u ∈ s.urls → u ∈ s.cache ∧ u ∉ cache0 ∧
    ∃ wi r, wi < count ∧ r < 3 ∧ u = gen wi r ∧ s.phases wi = WPhase.doneOk
  lenOk : s.urls.length =
    ((Finset.range count).filter (fun w => s.phases w = WPhase.doneOk)).card
  triesOk : ∀ wi, s.tries wi ≤ 3
  checkOk : ∀ wi r, s.phases wi = WPhase.checking r → s.tries wi = r ∧ r < 3

/-- Strengthened invariant, maintained when no two worker attempts of the
batch synthesize the same address: the result slice stays duplicate-free. -/
structure InvD (gen : Nat → Nat → String) (count : Nat) (cache0 : Finset String)
    (s : BatchState) : Prop where
  base : Inv gen count cache0 s
  nodup : s.urls.Nodup
  appendFresh : ∀ wi u, s.phases wi = WPhase.appending u → u ∉ s.urls

/-- Steps a non-terminal worker still has to take before returning. -/
def rank : WPhase → Nat
  | WPhase.checking r => 5 - r
  | WPhase.inserting _ => 2
  | WPhase.appending _ => 1
  | WPhase.doneOk => 0
  | WPhase.doneFail => 0

/-- Program counter of one call inside lines 103-106: before `Lock()`, after
`Lock()`, after `batchCount++`, after `currentBatch := batchCount`, after
`Unlock()`. -/
inductive CPhase where
  | idle
  | locked
  | inced
  | captured
  | done
deriving DecidableEq, Repr

/-- One call's control state and its captured `currentBatch` value. -/
structure CtrCall where
  phase : CPhase
  cap : Nat
deriving DecidableEq, Repr

/-- Shared state of the critical-section race: the counter, which call (if
any) holds `countMutex`, and the two calls. -/
structure CtrState where
  counter : Nat
  lockHeld : Option Nat
  calls : Nat → CtrCall

/-- One atomic event of call `i`: acquire the mutex when free (otherwise
block, i.e. do nothing), increment the counter, capture it, release. -/
def cstep (s : CtrState) (i : Nat) : CtrState :=
  if i < 2 then
    match (s.calls i).phase with
    | CPhase.idle =>
      if s.lockHeld = none then
        { s with
          lockHeld := some i,
          calls := upd s.calls i ⟨CPhase.locked, (s.calls i).cap⟩ }
      else s
    | CPhase.locked =>
      { s with
        counter := s.counter + 1,
        calls := upd s.calls i ⟨CPhase.inced, (s.calls i).cap⟩ }
    | CPhase.inced =>
      { s with calls := upd s.calls i ⟨CPhase.captured, s.counter⟩ }
    | CPhase.captured =>
      { s with
        lockHeld := none,
        calls := upd s.calls i ⟨CPhase.done, (s.calls i).cap⟩ }
    | CPhase.done => s
  else s

/-- Both calls about to enter the critical section; the counter holds `c0`. -/
def initCtr (c0 : Nat) : CtrState :=
  { counter := c0, lockHeld := none, calls := fun _ => ⟨CPhase.idle, 0⟩ }

/-- Run the two racing calls under a given interleaving. -/
def crun (c0 : Nat) (sched : List Nat) : CtrState :=
  sched.foldl cstep (initCtr c0)

/-- The call currently holds `countMutex`. -/
def inCS : CPhase → Bool
  | CPhase.locked => true
  | CPhase.inced => true
  | CPhase.captured => true
  | _ => false

/-- The call has already executed `s.batchCount++`. -/
def incDone : CPhase → Bool
  | CPhase.inced => true
  | CPhase.captured => true
  | CPhase.done => true
  | _ => false

/-- The call has already executed `currentBatch := s.batchCount`. -/
def capDone : CPhase → Bool
  | CPhase.captured => true
  | CPhase.done => true
  | _ => false

/-- Invariant of the critical-section race: the mutex really excludes, the
counter counts the executed increments, a call that captured while the other
had not yet incremented captured `c0 + 1`, and two finished captures differ. -/
structure CInv (c0 : Nat) (s : CtrState) : Prop where
  outRange : ∀ i, ¬ i < 2 → s.calls i = ⟨CPhase.idle, 0⟩
  lockNone : s.lockHeld = none → ∀ i, inCS (s.calls i).phase = false
  lockSome : ∀ i, s.lockHeld = some i → i < 2 ∧ inCS (s.calls i).phase = true ∧
    ∀ j, j ≠ i → inCS (s.calls j).phase = false
  counterEq : s.counter =
    c0 + ((incDone (s.calls 0).phase).toNat + (incDone (s.calls 1).phase).toNat)
  capLow : ∀ i j, i < 2 → j < 2 → i ≠ j → capDone (s.calls i).phase = true →
    capDone (s.calls j).phase = false → (s.calls i).cap = c0 + 1
  capNe : capDone (s.calls 0).phase = true → capDone (s.calls 1).phase = true →
    (s.calls 0).cap ≠ (s.calls 1).cap

/-- The `count` query-parameter handling of `GetCats`
(handlers/cat_handler.go, lines 94-101): start from the default 5; if the
parameter is present (`c.Query` returns `""` when absent), parse it and
accept only a successfully parsed value in 1..10. -/
def parseCount (countStr : String) : Int :=
  if countStr = "" then 5
  else
    match atoi countStr with
    | some parsed => if 0 < parsed ∧ parsed ≤ 10 then parsed else 5
    | none => 5

/-- Concrete two-call sequence used to witness C3: both calls succeed. -/
def specsC3 : List CallSpec :=
  [⟨fun w r => toString (3 * w + r), [0, 0, 0, 1, 1, 1], 2⟩,
    ⟨fun _ _ => "b", [0, 0, 0], 1⟩]

/-- Fifty-one distinct addresses, used to cross the eviction threshold. -/
def bigCache : Finset String :=
  ((List.range 51).map (fun n => toString n)).toFinset

/-! ## Theorems -/

theorem upd_self {α : Type} (f : Nat → α) (i : Nat) (a : α) : upd f i a i = a := by
  simp [upd]

theorem upd_ne {α : Type} (f : Nat → α) (i j : Nat) (a : α) (h : j ≠ i) :
    upd f i a j = f j := by
  simp [upd, h]

/-- Fold-preservation helper: an invariant closed under one machine step is
closed under running any schedule. -/
theorem foldl_preserve {σ α : Type} (f : σ → α → σ) (P : σ → Prop)
    (h : ∀ s a, P s → P (f s a)) :
    ∀ (l : List α) (s : σ), P s → P (l.foldl f s) := by
  intro l
  induction l with
  | nil => intro s hs; exact hs
  | cons a t ih => intro s hs; exact ih _ (h s a hs)

/-- Pointwise consequence of `InjectiveCandidates`. -/
theorem injectiveCandidates_eq {gen : Nat → Nat → String} {count : Nat}
    (h : InjectiveCandidates gen count) {w r w' r' : Nat}
    (hw : w < count) (hr : r < 3) (hw' : w' < count) (hr' : r' < 3)
    (he : gen w r = gen w' r') : w = w' ∧ r = r' := by
  have := h (w, r) (by
      rw [List.pair_mem_product]
      exact ⟨List.mem_range.mpr hw, List.mem_range.mpr hr⟩)
    (w', r') (by
      rw [List.pair_mem_product]
      exact ⟨List.mem_range.mpr hw', List.mem_range.mpr hr'⟩)
    he
  exact ⟨congrArg Prod.fst this, congrArg Prod.snd this⟩

/-! ## Reduction lemmas for single worker events -/

theorem wstep_of_not_lt {gen : Nat → Nat → String} {count : Nat} {s : BatchState}
    {wi : Nat} (hlt : ¬ wi < count) : wstep gen count s wi = s := by
  simp [wstep, hlt]

theorem wstep_checking_hit {gen : Nat → Nat → String} {count : Nat} {s : BatchState}
    {wi r : Nat} (hlt : wi < count) (hp : s.phases wi = WPhase.checking r)
    (hr : r < 3) (hm : gen wi r ∈ s.cache) :
    wstep gen count s wi =
      { s with
        phases := upd s.phases wi
          (if r + 1 < 3 then WPhase.checking (r + 1) else WPhase.doneFail),
        tries := upd s.tries wi (s.tries wi + 1) } := by
  simp [wstep, hlt, hp, hr, hm]

theorem wstep_checking_miss {gen : Nat → Nat → String} {count : Nat} {s : BatchState}
    {wi r : Nat} (hlt : wi < count) (hp : s.phases wi = WPhase.checking r)
    (hr : r < 3) (hm : gen wi r ∉ s.cache) :
    wstep gen count s wi =
      { s with
        phases := upd s.phases wi (WPhase.inserting (gen wi r)),
        tries := upd s.tries wi (s.tries wi + 1) } := by
  simp [wstep, hlt, hp, hr, hm]

theorem wstep_inserting {gen : Nat → Nat → String} {count : Nat} {s : BatchState}
    {wi : Nat} {u : String} (hlt : wi < count) (hp : s.phases wi = WPhase.inserting u) :
    wstep gen count s wi =
      { s with
        cache := insert u s.cache,
        phases := upd s.phases wi (WPhase.appending u) } := by
  simp [wstep, hlt, hp]

theorem wstep_appending {gen : Nat → Nat → String} {count : Nat} {s : BatchState}
    {wi : Nat} {u : String} (hlt : wi < count) (hp : s.phases wi = WPhase.appending u) :
    wstep gen count s wi =
      { s with
        urls := s.urls ++ [u],
        phases := upd s.phases wi WPhase.doneOk } := by
  simp [wstep, hlt, hp]

theorem wstep_doneOk {gen : Nat → Nat → String} {count : Nat} {s : BatchState}
    {wi : Nat} (hp : s.phases wi = WPhase.doneOk) : wstep gen count s wi = s := by
  by_cases hlt : wi < count <;> simp [wstep, hlt, hp]

theorem wstep_doneFail {gen : Nat → Nat → String} {count : Nat} {s : BatchState}
    {wi : Nat} (hp : s.phases wi = WPhase.doneFail) : wstep gen count s wi = s := by
  by_cases hlt : wi < count <;> simp [wstep, hlt, hp]

/-- A step of one worker never changes another worker's control state. -/
theorem wstep_phases_ne (gen : Nat → Nat → String) (count : Nat) (s : BatchState)
    {wi wj : Nat} (h : wi ≠ wj) :
    (wstep gen count s wj).phases wi = s.phases wi := by
  by_cases hlt : wj < count
  · cases hp : s.phases wj with
    | checking r =>
      by_cases hr : r < 3
      · by_cases hm : gen wj r ∈ s.cache
        · rw [wstep_checking_hit hlt hp hr hm]
          exact upd_ne _ _ _ _ h
        · rw [wstep_checking_miss hlt hp hr hm]
          exact upd_ne _ _ _ _ h
      · simp [wstep, hlt, hp, hr, upd_ne _ _ _ _ h]
    | inserting u =>
      rw [wstep_inserting hlt hp]
      exact upd_ne _ _ _ _ h
    | appending u =>
      rw [wstep_appending hlt hp]
      exact upd_ne _ _ _ _ h
    | doneOk => rw [wstep_doneOk hp]
    | doneFail => rw [wstep_doneFail hp]
  · rw [wstep_of_not_lt hlt]

theorem card_filter_upd_doneOk (phases : Nat → WPhase) (count wj : Nat)
    (hlt : wj < count) (hold : phases wj ≠ WPhase.doneOk) :
    ((Finset.range count).filter
        (fun w => upd phases wj WPhase.doneOk w = WPhase.doneOk)).card
      = ((Finset.range count).filter (fun w => phases w = WPhase.doneOk)).card + 1 := by
  have hset : (Finset.range count).filter
        (fun w => upd phases wj WPhase.doneOk w = WPhase.doneOk)
      = insert wj ((Finset.range count).filter (fun w => phases w = WPhase.doneOk)) := by
    ext a
    by_cases ha : a = wj
    · subst ha
      simp [Finset.mem_filter, upd_self, Finset.mem_range.mpr hlt]
    · simp [Finset.mem_filter, upd_ne _ _ _ _ ha, ha]
  rw [hset, Finset.card_insert_of_not_mem]
  simp [Finset.mem_filter, hold]

theorem filter_upd_not_doneOk (phases : Nat → WPhase) (count wj : Nat) (ph : WPhase)
    (hold : phases wj ≠ WPhase.doneOk) (hnew : ph ≠ WPhase.doneOk) :
    (Finset.range count).filter (fun w => upd phases wj ph w = WPhase.doneOk)
      = (Finset.range count).filter (fun w => phases w = WPhase.doneOk) := by
  ext a
  by_cases ha : a = wj
  · subst ha
    simp [Finset.mem_filter, upd_self, hold, hnew]
  · simp [Finset.mem_filter, upd_ne _ _ _ _ ha]

theorem init_inv (gen : Nat → Nat → String) (count : Nat) (cache0 : Finset String) :
    Inv gen count cache0 (initBatch cache0) := by
  refine ⟨Finset.Subset.refl _, fun _ _ => rfl, ?_, ?_, ?_, ?_, ?_, ?_⟩
  · intro wi u h
    rcases h with h | h <;> exact absurd h (by simp [initBatch])
  · intro wi u h
    exact absurd h (by simp [initBatch])
  · intro u hu
    exact absurd hu (by simp [initBatch])
  · simp [initBatch]
  · intro wi
    show (0 : Nat) ≤ 3
    omega
  · intro wi r h
    have h0 : WPhase.checking 0 = WPhase.checking r := h
    have hr : r = 0 := (WPhase.checking.inj h0).symm
    subst hr
    exact ⟨rfl, by omega⟩

theorem wstep_inv {gen : Nat → Nat → String} {count : Nat} {cache0 : Finset String}
    {s : BatchState} (wj : Nat) (h : Inv gen count cache0 s) :
    Inv gen count cache0 (wstep gen count s wj) := by
  by_cases hlt : wj < count
  case neg => rw [wstep_of_not_lt hlt]; exact h
  cases hp : s.phases wj with
  | doneOk => rw [wstep_doneOk hp]; exact h
  | doneFail => rw [wstep_doneFail hp]; exact h
  | checking r =>
    have hr : r < 3 := (h.checkOk wj r hp).2
    have htr : s.tries wj = r := (h.checkOk wj r hp).1
    by_cases hm : gen wj r ∈ s.cache
    · -- collision: retry or exhaust the budget
      rw [wstep_checking_hit hlt hp hr hm]
      have hnewPh : ∀ r₂, (if r + 1 < 3 then WPhase.checking (r + 1) else WPhase.doneFail)
          = WPhase.checking r₂ → r₂ = r + 1 ∧ r + 1 < 3 := by
        intro r₂ he
        by_cases hl : r + 1 < 3
        · rw [if_pos hl] at he
          exact ⟨(WPhase.checking.inj he).symm, hl⟩
        · rw [if_neg hl] at he
          exact absurd he (by simp)
      have hnotIns : ∀ u, (if r + 1 < 3 then WPhase.checking (r + 1) else WPhase.doneFail)
          ≠ WPhase.inserting u := by
        intro u
        by_cases hl : r + 1 < 3 <;> simp [hl]
      have hnotApp : ∀ u, (if r + 1 < 3 then WPhase.checking (r + 1) else WPhase.doneFail)
          ≠ WPhase.appending u := by
        intro u
        by_cases hl : r + 1 < 3 <;> simp [hl]
      have hnotOk : (if r + 1 < 3 then WPhase.checking (r + 1) else WPhase.doneFail)
          ≠ WPhase.doneOk := by
        by_cases hl : r + 1 < 3 <;> simp [hl]
      refine ⟨h.cacheMono, ?_, ?_, ?_, ?_, ?_, ?_, ?_⟩
      · intro wi hwi
        have hne : wi ≠ wj := fun e => hwi (e ▸ hlt)
        dsimp only
        rw [upd_ne _ _ _ _ hne]
        exact h.outOfRange wi hwi
      · intro wi u hph
        dsimp only at hph
        by_cases hw : wi = wj
        · subst hw
          rw [upd_self] at hph
          rcases hph with hph | hph
          · exact absurd hph (hnotIns u)
          · exact absurd hph (hnotApp u)
        · rw [upd_ne _ _ _ _ hw] at hph
          exact h.candOk wi u hph
      · intro wi u hph
        dsimp only at hph ⊢
        by_cases hw : wi = wj
        · subst hw
          rw [upd_self] at hph
          exact absurd hph (hnotApp u)
        · rw [upd_ne _ _ _ _ hw] at hph
          exact h.appendMem wi u hph
      · intro u hu
        dsimp only at hu ⊢
        obtain ⟨hc, hc0, wi, r', hwi, hr', hequ, hph⟩ := h.urlsOk u hu
        have hne : wi ≠ wj := by
          intro e
          rw [e, hp] at hph
          exact absurd hph (by simp)
        exact ⟨hc, hc0, wi, r', hwi, hr', hequ, by rw [upd_ne _ _ _ _ hne]; exact hph⟩
      · dsimp only
        rw [filter_upd_not_doneOk _ _ _ _ (by rw [hp]; simp) hnotOk]
        exact h.lenOk
      · intro wi
        dsimp only
        by_cases hw : wi = wj
        · subst hw
          rw [upd_self, htr]
          omega
        · rw [upd_ne _ _ _ _ hw]
          exact h.triesOk wi
      · intro wi r₂ hph
        dsimp only at hph ⊢
        by_cases hw : wi = wj
        · subst hw
          rw [upd_self] at hph
          obtain ⟨he, hl⟩ := hnewPh r₂ hph
          subst he
          rw [upd_self, htr]
          exact ⟨rfl, hl⟩
        · rw [upd_ne _ _ _ _ hw] at hph
          rw [upd_ne _ _ _ _ hw]
          exact h.checkOk wi r₂ hph
    · -- fresh candidate: move to the locked insert
      rw [wstep_checking_miss hlt hp hr hm]
      refine ⟨h.cacheMono, ?_, ?_, ?_, ?_, ?_, ?_, ?_⟩
      · intro wi hwi
        have hne : wi ≠ wj := fun e => hwi (e ▸ hlt)
        dsimp only
        rw [upd_ne _ _ _ _ hne]
        exact h.outOfRange wi hwi
      · intro wi u hph
        dsimp only at hph
        by_cases hw : wi = wj
        · subst hw
          rw [upd_self] at hph
          rcases hph with hph | hph
          · have heq := WPhase.inserting.inj hph
            exact ⟨r, hr, heq.symm, fun hmem => hm (heq ▸ h.cacheMono hmem)⟩
          · exact absurd hph (by simp)
        · rw [upd_ne _ _ _ _ hw] at hph
          exact h.candOk wi u hph
      · intro wi u hph
        dsimp only at hph ⊢
        by_cases hw : wi = wj
        · subst hw
          rw [upd_self] at hph
          exact absurd hph (by simp)
        · rw [upd_ne _ _ _ _ hw] at hph
          exact h.appendMem wi u hph
      · intro u hu
        dsimp only at hu ⊢
        obtain ⟨hc, hc0, wi, r', hwi, hr', hequ, hph⟩ := h.urlsOk u hu
        have hne : wi ≠ wj := by
          intro e
          rw [e, hp] at hph
          exact absurd hph (by simp)
        exact ⟨hc, hc0, wi, r', hwi, hr', hequ, by rw [upd_ne _ _ _ _ hne]; exact hph⟩
      · dsimp only
        rw [filter_upd_not_doneOk _ _ _ _ (by rw [hp]; simp) (by simp)]
        exact h.lenOk
      · intro wi
        dsimp only
        by_cases hw : wi = wj
        · subst hw
          rw [upd_self, htr]
          omega
        · rw [upd_ne _ _ _ _ hw]
          exact h.triesOk wi
      · intro wi r₂ hph
        dsimp only at hph ⊢
        by_cases hw : wi = wj
        · subst hw
          rw [upd_self] at hph
          exact absurd hph (by simp)
        · rw [upd_ne _ _ _ _ hw] at hph
          rw [upd_ne _ _ _ _ hw]
          exact h.checkOk wi r₂ hph
  | inserting u =>
    rw [wstep_inserting hlt hp]
    refine ⟨h.cacheMono.trans (Finset.subset_insert u s.cache), ?_, ?_, ?_, ?_, ?_, ?_, ?_⟩
    · intro wi hwi
      have hne : wi ≠ wj := fun e => hwi (e ▸ hlt)
      dsimp only
      rw [upd_ne _ _ _ _ hne]
      exact h.outOfRange wi hwi
    · intro wi u' hph
      dsimp only at hph
      by_cases hw : wi = wj
      · subst hw
        rw [upd_self] at hph
        rcases hph with hph | hph
        · exact absurd hph (by simp)
        · have heq := WPhase.appending.inj hph
          subst heq
          exact h.candOk wi u (Or.inl hp)
      · rw [upd_ne _ _ _ _ hw] at hph
        exact h.candOk wi u' hph
    · intro wi u' hph
      dsimp only at hph ⊢
      by_cases hw : wi = wj
      · subst hw
        rw [upd_self] at hph
        have heq := WPhase.appending.inj hph
        subst heq
        exact Finset.mem_insert_self u s.cache
      · rw [upd_ne _ _ _ _ hw] at hph
        exact Finset.mem_insert_of_mem (h.appendMem wi u' hph)
    · intro u' hu
      dsimp only at hu ⊢
      obtain ⟨hc, hc0, wi, r', hwi, hr', hequ, hph⟩ := h.urlsOk u' hu
      have hne : wi ≠ wj := by
        intro e
        rw [e, hp] at hph
        exact absurd hph (by simp)
      exact ⟨Finset.mem_insert_of_mem hc, hc0, wi, r', hwi, hr', hequ,
        by rw [upd_ne _ _ _ _ hne]; exact hph⟩
    · dsimp only
      rw [filter_upd_not_doneOk _ _ _ _ (by rw [hp]; simp) (by simp)]
      exact h.lenOk
    · intro wi
      exact h.triesOk wi
    · intro wi r₂ hph
      dsimp only at hph ⊢
      by_cases hw : wi = wj
      · subst hw
        rw [upd_self] at hph
        exact absurd hph (by simp)
      · rw [upd_ne _ _ _ _ hw] at hph
        exact h.checkOk wi r₂ hph
  | appending u =>
    rw [wstep_appending hlt hp]
    refine ⟨h.cacheMono, ?_, ?_, ?_, ?_, ?_, ?_, ?_⟩
    · intro wi hwi
      have hne : wi ≠ wj := fun e => hwi (e ▸ hlt)
      dsimp only
      rw [upd_ne _ _ _ _ hne]
      exact h.outOfRange wi hwi
    · intro wi u' hph
      dsimp only at hph
      by_cases hw : wi = wj
      · subst hw
        rw [upd_self] at hph
        rcases hph with hph | hph <;> exact absurd hph (by simp)
      · rw [upd_ne _ _ _ _ hw] at hph
        exact h.candOk wi u' hph
    · intro wi u' hph
      dsimp only at hph ⊢
      by_cases hw : wi = wj
      · subst hw
        rw [upd_self] at hph
        exact absurd hph (by simp)
      · rw [upd_ne _ _ _ _ hw] at hph
        exact h.appendMem wi u' hph
    · intro u' hu
      dsimp only at hu ⊢
      rcases List.mem_append.mp hu with hu' | hu'
      · obtain ⟨hc, hc0, wi, r', hwi, hr', hequ, hph⟩ := h.urlsOk u' hu'
        have hne : wi ≠ wj := by
          intro e
          rw [e, hp] at hph
          exact absurd hph (by simp)
        exact ⟨hc, hc0, wi, r', hwi, hr', hequ,
          by rw [upd_ne _ _ _ _ hne]; exact hph⟩
      · have hequ' : u' = u := by simpa using hu'
        subst hequ'
        obtain ⟨r', hr', hequ, hc0⟩ := h.candOk wj u' (Or.inr hp)
        exact ⟨h.appendMem wj u' hp, hc0, wj, r', hlt, hr', hequ, upd_self _ _ _⟩
    · dsimp only
      rw [List.length_append, List.length_singleton, h.lenOk,
        card_filter_upd_doneOk _ _ _ hlt (by rw [hp]; simp)]
    · intro wi
      exact h.triesOk wi
    · intro wi r₂ hph
      dsimp only at hph ⊢
      by_cases hw : wi = wj
      · subst hw
        rw [upd_self] at hph
        exact absurd hph (by simp)
      · rw [upd_ne _ _ _ _ hw] at hph
        exact h.checkOk wi r₂ hph

theorem runWorkers_inv (gen : Nat → Nat → String) (count : Nat)
    (cache0 : Finset String) (sched : List Nat) :
    Inv gen count cache0 (runWorkers gen count (initBatch cache0) sched) :=
  foldl_preserve _ _ (fun _ wj hs => wstep_inv wj hs) sched _
    (init_inv gen count cache0)

theorem init_invD (gen : Nat → Nat → String) (count : Nat) (cache0 : Finset String) :
    InvD gen count cache0 (initBatch cache0) := by
  refine ⟨init_inv gen count cache0, List.nodup_nil, ?_⟩
  intro wi u h
  exact absurd h (by simp [initBatch])

theorem active_lt {gen : Nat → Nat → String} {count : Nat} {cache0 : Finset String}
    {s : BatchState} (h : Inv gen count cache0 s) {wi : Nat} {u : String}
    (hph : s.phases wi = WPhase.inserting u ∨ s.phases wi = WPhase.appending u) :
    wi < count := by
  by_contra hlt
  have h0 := h.outOfRange wi hlt
  rcases hph with hph | hph <;> rw [h0] at hph <;> exact absurd hph (by simp)

theorem wstep_invD {gen : Nat → Nat → String} {count : Nat} {cache0 : Finset String}
    {s : BatchState} (hinj : InjectiveCandidates gen count) (wj : Nat)
    (h : InvD gen count cache0 s) : InvD gen count cache0 (wstep gen count s wj) := by
  have hbase := wstep_inv wj h.base
  refine ⟨hbase, ?_, ?_⟩
  all_goals by_cases hlt : wj < count
  case neg => rw [wstep_of_not_lt hlt]; exact h.nodup
  case neg => rw [wstep_of_not_lt hlt]; exact h.appendFresh
  -- nodup
  · cases hp : s.phases wj with
    | doneOk => rw [wstep_doneOk hp]; exact h.nodup
    | doneFail => rw [wstep_doneFail hp]; exact h.nodup
    | checking r =>
      have hr : r < 3 := (h.base.checkOk wj r hp).2
      by_cases hm : gen wj r ∈ s.cache
      · rw [wstep_checking_hit hlt hp hr hm]; exact h.nodup
      · rw [wstep_checking_miss hlt hp hr hm]; exact h.nodup
    | inserting u => rw [wstep_inserting hlt hp]; exact h.nodup
    | appending u =>
      rw [wstep_appending hlt hp]
      dsimp only
      rw [List.nodup_append]
      refine ⟨h.nodup, List.nodup_singleton u, ?_⟩
      intro a ha hb
      have hab : a = u := by simpa using hb
      subst hab
      exact h.appendFresh wj a hp ha
  -- appendFresh
  · cases hp : s.phases wj with
    | doneOk =>
      rw [wstep_doneOk hp]; exact h.appendFresh
    | doneFail =>
      rw [wstep_doneFail hp]; exact h.appendFresh
    | checking r =>
      have hr : r < 3 := (h.base.checkOk wj r hp).2
      by_cases hm : gen wj r ∈ s.cache
      · rw [wstep_checking_hit hlt hp hr hm]
        intro wi u hph
        dsimp only at hph ⊢
        by_cases hw : wi = wj
        · subst hw
          rw [upd_self] at hph
          by_cases hl : r + 1 < 3
          · rw [if_pos hl] at hph
            exact absurd hph (by simp)
          · rw [if_neg hl] at hph
            exact absurd hph (by simp)
        · rw [upd_ne _ _ _ _ hw] at hph
          exact h.appendFresh wi u hph
      · rw [wstep_checking_miss hlt hp hr hm]
        intro wi u hph
        dsimp only at hph ⊢
        by_cases hw : wi = wj
        · subst hw
          rw [upd_self] at hph
          exact absurd hph (by simp)
        · rw [upd_ne _ _ _ _ hw] at hph
          exact h.appendFresh wi u hph
    | inserting u =>
      rw [wstep_inserting hlt hp]
      intro wi u' hph
      dsimp only at hph ⊢
      by_cases hw : wi = wj
      · subst hw
        rw [upd_self] at hph
        have heq := WPhase.appending.inj hph
        subst heq
        intro hu
        obtain ⟨-, -, wi', r', hwi', hr', hequ', hph'⟩ := h.base.urlsOk u hu
        obtain ⟨r, hrr, hequ, -⟩ := h.base.candOk wi u (Or.inl hp)
        have hee : gen wi r = gen wi' r' := by rw [← hequ, ← hequ']
        have hij := injectiveCandidates_eq hinj hlt hrr hwi' hr' hee
        rw [hij.1, hph'] at hp
        exact absurd hp (by simp)
      · rw [upd_ne _ _ _ _ hw] at hph
        exact h.appendFresh wi u' hph
    | appending u =>
      rw [wstep_appending hlt hp]
      intro wi u' hph
      dsimp only at hph ⊢
      by_cases hw : wi = wj
      · subst hw
        rw [upd_self] at hph
        exact absurd hph (by simp)
      · rw [upd_ne _ _ _ _ hw] at hph
        have hwi : wi < count := active_lt h.base (Or.inr hph)
        rw [List.mem_append]
        rintro (hu | hu)
        · exact h.appendFresh wi u' hph hu
        · have hequ' : u' = u := by simpa using hu
          obtain ⟨r₁, hr₁, he₁, -⟩ := h.base.candOk wi u' (Or.inr hph)
          obtain ⟨r₂, hr₂, he₂, -⟩ := h.base.candOk wj u (Or.inr hp)
          have hee : gen wi r₁ = gen wj r₂ := by rw [← he₁, hequ', he₂]
          exact hw (injectiveCandidates_eq hinj hwi hr₁ hlt hr₂ hee).1

theorem runWorkers_invD (gen : Nat → Nat → String) (count : Nat)
    (cache0 : Finset String) (sched : List Nat)
    (hinj : InjectiveCandidates gen count) :
    InvD gen count cache0 (runWorkers gen count (initBatch cache0) sched) :=
  foldl_preserve _ _ (fun _ wj hs => wstep_invD hinj wj hs) sched _
    (init_invD gen count cache0)

theorem terminal_wstep {gen : Nat → Nat → String} {count : Nat} {s : BatchState}
    {wi : Nat} (wj : Nat) (h : isTerminal (s.phases wi)) :
    isTerminal ((wstep gen count s wj).phases wi) := by
  by_cases hw : wi = wj
  · subst hw
    rcases h with h | h
    · rw [wstep_doneOk h]; exact Or.inl h
    · rw [wstep_doneFail h]; exact Or.inr h
  · rw [wstep_phases_ne gen count s hw]
    exact h

theorem wstep_self_progress {gen : Nat → Nat → String} {count : Nat}
    {cache0 : Finset String} {s : BatchState} {wi : Nat}
    (hlt : wi < count) (h : Inv gen count cache0 s)
    (hnt : ¬ isTerminal (s.phases wi)) :
    rank ((wstep gen count s wi).phases wi) < rank (s.phases wi) := by
  cases hp : s.phases wi with
  | doneOk => exact absurd (Or.inl hp) hnt
  | doneFail => exact absurd (Or.inr hp) hnt
  | checking r =>
    have hr : r < 3 := (h.checkOk wi r hp).2
    by_cases hm : gen wi r ∈ s.cache
    · rw [wstep_checking_hit hlt hp hr hm]
      dsimp only
      rw [upd_self]
      by_cases hl : r + 1 < 3
      · rw [if_pos hl]
        show 5 - (r + 1) < 5 - r
        omega
      · rw [if_neg hl]
        show 0 < 5 - r
        omega
    · rw [wstep_checking_miss hlt hp hr hm]
      dsimp only
      rw [upd_self]
      show 2 < 5 - r
      omega
  | inserting u =>
    rw [wstep_inserting hlt hp]
    dsimp only
    rw [upd_self]
    show 1 < 2
    omega
  | appending u =>
    rw [wstep_appending hlt hp]
    dsimp only
    rw [upd_self]
    show 0 < 1
    omega

theorem rank_zero_terminal {gen : Nat → Nat → String} {count : Nat}
    {cache0 : Finset String} {s : BatchState} {wi : Nat}
    (h : Inv gen count cache0 s) (hz : rank (s.phases wi) = 0) :
    isTerminal (s.phases wi) := by
  cases hp : s.phases wi with
  | doneOk => exact Or.inl rfl
  | doneFail => exact Or.inr rfl
  | checking r =>
    have hr : r < 3 := (h.checkOk wi r hp).2
    rw [hp] at hz
    have h5 : 5 - r = 0 := hz
    exact absurd h5 (by omega)
  | inserting u =>
    rw [hp] at hz
    exact absurd hz (by simp [rank])
  | appending u =>
    rw [hp] at hz
    exact absurd hz (by simp [rank])

theorem run_terminal_of_count {gen : Nat → Nat → String} {count : Nat}
    {cache0 : Finset String} {wi : Nat} (hlt : wi < count) :
    ∀ (sched : List Nat) (s : BatchState), Inv gen count cache0 s →
      rank (s.phases wi) ≤ sched.count wi →
      isTerminal ((runWorkers gen count s sched).phases wi) := by
  intro sched
  induction sched with
  | nil =>
    intro s hs hc
    have hz : rank (s.phases wi) = 0 := by
      simpa using hc
    exact rank_zero_terminal hs hz
  | cons a rest ih =>
    intro s hs hc
    show isTerminal ((runWorkers gen count (wstep gen count s a) rest).phases wi)
    by_cases hterm : isTerminal (s.phases wi)
    · exact foldl_preserve _ (fun (t : BatchState) => isTerminal (t.phases wi))
        (fun (t : BatchState) (wj : Nat) ht => terminal_wstep wj ht) rest _
        (terminal_wstep a hterm)
    · by_cases ha : a = wi
      · subst ha
        have hco : (a :: rest).count a = rest.count a + 1 := by
          simp [List.count_cons]
        have hprog := wstep_self_progress hlt hs hterm
        exact ih _ (wstep_inv a hs) (by omega)
      · have hph : (wstep gen count s a).phases wi = s.phases wi :=
          wstep_phases_ne gen count s (fun e => ha e.symm)
        have hco : (a :: rest).count wi = rest.count wi := by
          simp [List.count_cons, ha]
        exact ih _ (wstep_inv a hs) (by rw [hph]; omega)

/-! ## A worker whose candidates all collide admits nothing -/

theorem run_allcollide {gen : Nat → Nat → String} {count : Nat}
    {cache0 : Finset String} {wi : Nat}
    (hall : ∀ r, r < 3 → gen wi r ∈ cache0) (sched : List Nat) :
    (∃ r, (runWorkers gen count (initBatch cache0) sched).phases wi
        = WPhase.checking r) ∨
      (runWorkers gen count (initBatch cache0) sched).phases wi = WPhase.doneFail := by
  have main : ∀ (l : List Nat) (s : BatchState),
      (Inv gen count cache0 s ∧
        ((∃ r, s.phases wi = WPhase.checking r) ∨ s.phases wi = WPhase.doneFail)) →
      (Inv gen count cache0 (runWorkers gen count s l) ∧
        ((∃ r, (runWorkers gen count s l).phases wi = WPhase.checking r) ∨
          (runWorkers gen count s l).phases wi = WPhase.doneFail)) := by
    refine foldl_preserve _ _ ?_
    rintro s wj ⟨hs, hph⟩
    refine ⟨wstep_inv wj hs, ?_⟩
    by_cases hw : wi = wj
    · subst hw
      by_cases hlt : wi < count
      · rcases hph with ⟨r, hph⟩ | hph
        · have hr : r < 3 := (hs.checkOk wi r hph).2
          have hm : gen wi r ∈ s.cache := hs.cacheMono (hall r hr)
          rw [wstep_checking_hit hlt hph hr hm]
          dsimp only
          rw [upd_self]
          by_cases hl : r + 1 < 3
          · rw [if_pos hl]
            exact Or.inl ⟨r + 1, rfl⟩
          · rw [if_neg hl]
            exact Or.inr rfl
        · rw [wstep_doneFail hph]
          exact Or.inr hph
      · rw [wstep_of_not_lt hlt]
        exact hph
    · rw [wstep_phases_ne gen count s hw]
      exact hph
  have h0 : (∃ r, (initBatch cache0).phases wi = WPhase.checking r) ∨
      (initBatch cache0).phases wi = WPhase.doneFail := Or.inl ⟨0, rfl⟩
  exact (main sched (initBatch cache0) ⟨init_inv gen count cache0, h0⟩).2

theorem init_cinv (c0 : Nat) : CInv c0 (initCtr c0) := by
  refine ⟨fun i _ => rfl, fun _ i => rfl, ?_, rfl, ?_, ?_⟩
  · intro i hl
    exact absurd hl (by simp [initCtr])
  · intro i j _ _ _ hc _
    exact absurd hc (by simp [initCtr, capDone])
  · intro hc
    exact absurd hc (by simp [initCtr, capDone])

/-- A call inside the critical section is the lock holder. -/
theorem cs_lock {c0 : Nat} {s : CtrState} (h : CInv c0 s) {i : Nat}
    (hcs : inCS (s.calls i).phase = true) : s.lockHeld = some i := by
  cases hl : s.lockHeld with
  | none =>
    have := h.lockNone hl i
    rw [hcs] at this
    exact absurd this (by simp)
  | some k =>
    by_cases hk : i = k
    · rw [hk]
    · have := (h.lockSome k hl).2.2 i hk
      rw [hcs] at this
      exact absurd this (by simp)

theorem cstep_not_lt {s : CtrState} {i : Nat} (hi : ¬ i < 2) : cstep s i = s := by
  simp [cstep, hi]

theorem cstep_idle_free {s : CtrState} {i : Nat} (hi : i < 2)
    (hp : (s.calls i).phase = CPhase.idle) (hl : s.lockHeld = none) :
    cstep s i =
      { s with
        lockHeld := some i,
        calls := upd s.calls i ⟨CPhase.locked, (s.calls i).cap⟩ } := by
  simp [cstep, hi, hp, hl]

theorem cstep_idle_blocked {s : CtrState} {i : Nat} (hi : i < 2)
    (hp : (s.calls i).phase = CPhase.idle) (hl : s.lockHeld ≠ none) :
    cstep s i = s := by
  simp [cstep, hi, hp, hl]

theorem cstep_locked {s : CtrState} {i : Nat} (hi : i < 2)
    (hp : (s.calls i).phase = CPhase.locked) :
    cstep s i =
      { s with
        counter := s.counter + 1,
        calls := upd s.calls i ⟨CPhase.inced, (s.calls i).cap⟩ } := by
  simp [cstep, hi, hp]

theorem cstep_inced {s : CtrState} {i : Nat} (hi : i < 2)
    (hp : (s.calls i).phase = CPhase.inced) :
    cstep s i = { s with calls := upd s.calls i ⟨CPhase.captured, s.counter⟩ } := by
  simp [cstep, hi, hp]

theorem cstep_captured {s : CtrState} {i : Nat} (hi : i < 2)
    (hp : (s.calls i).phase = CPhase.captured) :
    cstep s i =
      { s with
        lockHeld := none,
        calls := upd s.calls i ⟨CPhase.done, (s.calls i).cap⟩ } := by
  simp [cstep, hi, hp]

theorem cstep_done {s : CtrState} {i : Nat} (hp : (s.calls i).phase = CPhase.done) :
    cstep s i = s := by
  by_cases hi : i < 2 <;> simp [cstep, hi, hp]

theorem two_cases {a b : Nat} (ha : a < 2) (hb : b < 2) (hab : a ≠ b) :
    (a = 0 ∧ b = 1) ∨ (a = 1 ∧ b = 0) := by
  omega

theorem sumInc_upd_bump (calls : Nat → CtrCall) {i : Nat} (hi : i < 2) (c : CtrCall)
    (hold : incDone (calls i).phase = false) (hnew : incDone c.phase = true) :
    (incDone ((upd calls i c) 0).phase).toNat + (incDone ((upd calls i c) 1).phase).toNat
      = (incDone (calls 0).phase).toNat + (incDone (calls 1).phase).toNat + 1 := by
  rcases (by omega : i = 0 ∨ i = 1) with rfl | rfl
  · rw [upd_self, upd_ne _ _ _ _ (by omega : (1 : Nat) ≠ 0), hnew, hold]
    simp only [Bool.toNat_true, Bool.toNat_false]
    omega
  · rw [upd_self, upd_ne _ _ _ _ (by omega : (0 : Nat) ≠ 1), hnew, hold]
    simp only [Bool.toNat_true, Bool.toNat_false]

theorem sumInc_upd_same (calls : Nat → CtrCall) {i : Nat} (c : CtrCall)
    (hsame : incDone c.phase = incDone (calls i).phase) :
    (incDone ((upd calls i c) 0).phase).toNat + (incDone ((upd calls i c) 1).phase).toNat
      = (incDone (calls 0).phase).toNat + (incDone (calls 1).phase).toNat := by
  have hj : ∀ j, incDone ((upd calls i c) j).phase = incDone (calls j).phase := by
    intro j
    by_cases hji : j = i
    · subst hji
      rw [upd_self, hsame]
    · rw [upd_ne _ _ _ _ hji]
  rw [hj 0, hj 1]

/-- A phase that neither holds the lock nor has captured is `idle`, hence has
not incremented either. -/
theorem idle_of_out (ph : CPhase) (hcs : inCS ph = false) (hcap : capDone ph = false) :
    incDone ph = false := by
  cases ph with
  | idle => rfl
  | locked => exact absurd hcs (by simp [inCS])
  | inced => exact absurd hcs (by simp [inCS])
  | captured => exact absurd hcs (by simp [inCS])
  | done => exact absurd hcap (by simp [capDone])

theorem done_of_out_cap (ph : CPhase) (hcs : inCS ph = false)
    (hcap : capDone ph = true) : ph = CPhase.done := by
  cases ph with
  | idle => exact absurd hcap (by simp [capDone])
  | locked => exact absurd hcs (by simp [inCS])
  | inced => exact absurd hcs (by simp [inCS])
  | captured => exact absurd hcs (by simp [inCS])
  | done => rfl

theorem cstep_cinv {c0 : Nat} {s : CtrState} (i : Nat) (h : CInv c0 s) :
    CInv c0 (cstep s i) := by
  by_cases hi : i < 2
  case neg => rw [cstep_not_lt hi]; exact h
  cases hp : (s.calls i).phase with
  | done => rw [cstep_done hp]; exact h
  | idle =>
    by_cases hl : s.lockHeld = none
    · rw [cstep_idle_free hi hp hl]
      have hph : ∀ j, j ≠ i →
          (upd s.calls i ⟨CPhase.locked, (s.calls i).cap⟩) j = s.calls j :=
        fun j hj => upd_ne _ _ _ _ hj
      have hcapj : ∀ j, capDone ((upd s.calls i ⟨CPhase.locked, (s.calls i).cap⟩) j).phase
          = capDone (s.calls j).phase := by
        intro j
        by_cases hji : j = i
        · subst hji
          rw [upd_self, hp]
          rfl
        · rw [hph j hji]
      have hcapv : ∀ j, ((upd s.calls i ⟨CPhase.locked, (s.calls i).cap⟩) j).cap
          = (s.calls j).cap := by
        intro j
        by_cases hji : j = i
        · subst hji
          rw [upd_self]
        · rw [hph j hji]
      refine ⟨?_, ?_, ?_, ?_, ?_, ?_⟩
      · intro j hj
        dsimp only
        rw [hph j (fun e => hj (e ▸ hi))]
        exact h.outRange j hj
      · intro hnone
        exact absurd hnone (by simp)
      · intro k hk
        dsimp only at hk ⊢
        have hki : k = i := by
          have := Option.some.inj hk
          omega
        subst hki
        refine ⟨hi, by rw [upd_self]; rfl, ?_⟩
        intro j hj
        rw [hph j hj]
        exact h.lockNone hl j
      · dsimp only
        rw [sumInc_upd_same s.calls _ (by rw [hp]; rfl)]
        exact h.counterEq
      · intro a b ha hb hab hca hcb
        dsimp only at hca hcb ⊢
        rw [hcapj a] at hca
        rw [hcapj b] at hcb
        rw [hcapv a]
        exact h.capLow a b ha hb hab hca hcb
      · intro hc0 hc1
        dsimp only at hc0 hc1 ⊢
        rw [hcapj 0] at hc0
        rw [hcapj 1] at hc1
        rw [hcapv 0, hcapv 1]
        exact h.capNe hc0 hc1
    · rw [cstep_idle_blocked hi hp hl]
      exact h
  | locked =>
    rw [cstep_locked hi hp]
    have hlock : s.lockHeld = some i := cs_lock h (by rw [hp]; rfl)
    have hph : ∀ j, j ≠ i →
        (upd s.calls i ⟨CPhase.inced, (s.calls i).cap⟩) j = s.calls j :=
      fun j hj => upd_ne _ _ _ _ hj
    have hcapj : ∀ j, capDone ((upd s.calls i ⟨CPhase.inced, (s.calls i).cap⟩) j).phase
        = capDone (s.calls j).phase := by
      intro j
      by_cases hji : j = i
      · subst hji
        rw [upd_self, hp]
        rfl
      · rw [hph j hji]
    have hcapv : ∀ j, ((upd s.calls i ⟨CPhase.inced, (s.calls i).cap⟩) j).cap
        = (s.calls j).cap := by
      intro j
      by_cases hji : j = i
      · subst hji
        rw [upd_self]
      · rw [hph j hji]
    refine ⟨?_, ?_, ?_, ?_, ?_, ?_⟩
    · intro j hj
      dsimp only
      rw [hph j (fun e => hj (e ▸ hi))]
      exact h.outRange j hj
    · intro hnone
      dsimp only at hnone
      rw [hnone] at hlock
      exact absurd hlock (by simp)
    · intro k hk
      dsimp only at hk ⊢
      have hki : k = i := by
        rw [hlock] at hk
        exact (Option.some.inj hk).symm
      subst hki
      refine ⟨hi, by rw [upd_self]; rfl, ?_⟩
      intro j hj
      rw [hph j hj]
      exact (h.lockSome k hlock).2.2 j hj
    · dsimp only
      rw [sumInc_upd_bump s.calls hi ⟨CPhase.inced, (s.calls i).cap⟩
        (by rw [hp]; rfl) rfl]
      rw [h.counterEq]
      omega
    · intro a b ha hb hab hca hcb
      dsimp only at hca hcb ⊢
      rw [hcapj a] at hca
      rw [hcapj b] at hcb
      rw [hcapv a]
      exact h.capLow a b ha hb hab hca hcb
    · intro hc0 hc1
      dsimp only at hc0 hc1 ⊢
      rw [hcapj 0] at hc0
      rw [hcapj 1] at hc1
      rw [hcapv 0, hcapv 1]
      exact h.capNe hc0 hc1
  | inced =>
    rw [cstep_inced hi hp]
    have hlock : s.lockHeld = some i := cs_lock h (by rw [hp]; rfl)
    have hph : ∀ j, j ≠ i →
        (upd s.calls i ⟨CPhase.captured, s.counter⟩) j = s.calls j :=
      fun j hj => upd_ne _ _ _ _ hj
    have hout : ∀ j, j ≠ i → inCS (s.calls j).phase = false :=
      (h.lockSome i hlock).2.2
    refine ⟨?_, ?_, ?_, ?_, ?_, ?_⟩
    · intro j hj
      dsimp only
      rw [hph j (fun e => hj (e ▸ hi))]
      exact h.outRange j hj
    · intro hnone
      dsimp only at hnone
      rw [hnone] at hlock
      exact absurd hlock (by simp)
    · intro k hk
      dsimp only at hk ⊢
      have hki : k = i := by
        rw [hlock] at hk
        exact (Option.some.inj hk).symm
      subst hki
      refine ⟨hi, by rw [upd_self]; rfl, ?_⟩
      intro j hj
      rw [hph j hj]
      exact hout j hj
    · dsimp only
      rw [sumInc_upd_same s.calls _ (by rw [hp]; rfl)]
      exact h.counterEq
    · intro a b ha hb hab hca hcb
      dsimp only at hca hcb ⊢
      rcases (by omega : i = 0 ∨ i = 1) with rfl | rfl
      · rcases two_cases ha hb hab with ⟨rfl, rfl⟩ | ⟨rfl, rfl⟩
        · -- the capturing call 0, against a not-yet-captured call 1
          rw [upd_self]
          rw [upd_ne _ _ _ _ (by omega : (1 : Nat) ≠ 0)] at hcb
          have hbinc : incDone (s.calls 1).phase = false :=
            idle_of_out _ (hout 1 (by omega)) hcb
          have hainc : incDone (s.calls 0).phase = true := by rw [hp]; rfl
          have hce := h.counterEq
          rw [hainc, hbinc] at hce
          have hcnt : s.counter = c0 + 1 := by simpa using hce
          dsimp only
          exact hcnt
        · -- call 0 is capturing, so its `capDone` cannot be false
          rw [upd_self] at hcb
          exact absurd hcb (by simp [capDone])
      · rcases two_cases ha hb hab with ⟨rfl, rfl⟩ | ⟨rfl, rfl⟩
        · -- call 1 is capturing, so its `capDone` cannot be false
          rw [upd_self] at hcb
          exact absurd hcb (by simp [capDone])
        · rw [upd_self]
          rw [upd_ne _ _ _ _ (by omega : (0 : Nat) ≠ 1)] at hcb
          have hbinc : incDone (s.calls 0).phase = false :=
            idle_of_out _ (hout 0 (by omega)) hcb
          have hainc : incDone (s.calls 1).phase = true := by rw [hp]; rfl
          have hce := h.counterEq
          rw [hainc, hbinc] at hce
          have hcnt : s.counter = c0 + 1 := by simpa using hce
          dsimp only
          exact hcnt
    · intro hc0 hc1
      dsimp only at hc0 hc1 ⊢
      rcases (by omega : i = 0 ∨ i = 1) with rfl | rfl
      · rw [upd_self] at hc0 ⊢
        rw [upd_ne _ _ _ _ (by omega : (1 : Nat) ≠ 0)] at hc1 ⊢
        have h1done : (s.calls 1).phase = CPhase.done :=
          done_of_out_cap _ (hout 1 (by omega)) hc1
        have hlow : (s.calls 1).cap = c0 + 1 := by
          refine h.capLow 1 0 (by omega) (by omega) (by omega) hc1 ?_
          rw [hp]
          rfl
        have hainc : incDone (s.calls 0).phase = true := by rw [hp]; rfl
        have hbinc : incDone (s.calls 1).phase = true := by rw [h1done]; rfl
        have hce := h.counterEq
        rw [hainc, hbinc] at hce
        have hcnt : s.counter = c0 + 2 := by simpa using hce
        dsimp only
        rw [hcnt, hlow]
        omega
      · rw [upd_self] at hc1 ⊢
        rw [upd_ne _ _ _ _ (by omega : (0 : Nat) ≠ 1)] at hc0 ⊢
        have h0done : (s.calls 0).phase = CPhase.done :=
          done_of_out_cap _ (hout 0 (by omega)) hc0
        have hlow : (s.calls 0).cap = c0 + 1 := by
          refine h.capLow 0 1 (by omega) (by omega) (by omega) hc0 ?_
          rw [hp]
          rfl
        have hainc : incDone (s.calls 1).phase = true := by rw [hp]; rfl
        have hbinc : incDone (s.calls 0).phase = true := by rw [h0done]; rfl
        have hce := h.counterEq
        rw [hainc, hbinc] at hce
        have hcnt : s.counter = c0 + 2 := by simpa using hce
        dsimp only
        rw [hcnt, hlow]
        omega
  | captured =>
    rw [cstep_captured hi hp]
    have hlock : s.lockHeld = some i := cs_lock h (by rw [hp]; rfl)
    have hph : ∀ j, j ≠ i →
        (upd s.calls i ⟨CPhase.done, (s.calls i).cap⟩) j = s.calls j :=
      fun j hj => upd_ne _ _ _ _ hj
    have hout : ∀ j, j ≠ i → inCS (s.calls j).phase = false :=
      (h.lockSome i hlock).2.2
    have hcapj : ∀ j, capDone ((upd s.calls i ⟨CPhase.done, (s.calls i).cap⟩) j).phase
        = capDone (s.calls j).phase := by
      intro j
      by_cases hji : j = i
      · subst hji
        rw [upd_self, hp]
        rfl
      · rw [hph j hji]
    have hcapv : ∀ j, ((upd s.calls i ⟨CPhase.done, (s.calls i).cap⟩) j).cap
        = (s.calls j).cap := by
      intro j
      by_cases hji : j = i
      · subst hji
        rw [upd_self]
      · rw [hph j hji]
    refine ⟨?_, ?_, ?_, ?_, ?_, ?_⟩
    · intro j hj
      dsimp only
      rw [hph j (fun e => hj (e ▸ hi))]
      exact h.outRange j hj
    · intro _ j
      dsimp only
      by_cases hji : j = i
      · subst hji
        rw [upd_self]
        rfl
      · rw [hph j hji]
        exact hout j hji
    · intro k hk
      dsimp only at hk
      exact absurd hk (by simp)
    · dsimp only
      rw [sumInc_upd_same s.calls _ (by rw [hp]; rfl)]
      exact h.counterEq
    · intro a b ha hb hab hca hcb
      dsimp only at hca hcb ⊢
      rw [hcapj a] at hca
      rw [hcapj b] at hcb
      rw [hcapv a]
      exact h.capLow a b ha hb hab hca hcb
    · intro hc0 hc1
      dsimp only at hc0 hc1 ⊢
      rw [hcapj 0] at hc0
      rw [hcapj 1] at hc1
      rw [hcapv 0, hcapv 1]
      exact h.capNe hc0 hc1

theorem crun_cinv (c0 : Nat) (sched : List Nat) : CInv c0 (crun c0 sched) :=
  foldl_preserve _ _ (fun _ i hs => cstep_cinv i hs) sched _ (init_cinv c0)

/-! ## Output-shape lemmas for `GenerateCatURLs` -/

theorem genCat_state (gen : Nat → Nat → String) (sched : List Nat) (count : Nat)
    (st : SvcState) :
    (GenerateCatURLs gen sched count st).state =
      ⟨(runWorkers gen count (initBatch st.recentURLs) sched).cache,
        st.batchCount + 1⟩ := rfl

theorem genCat_output_empty (gen : Nat → Nat → String) (sched : List Nat)
    (count : Nat) (st : SvcState)
    (he : (runWorkers gen count (initBatch st.recentURLs) sched).urls = []) :
    (GenerateCatURLs gen sched count st).output =
      ⟨[], 0, some "no se pudieron obtener imágenes de gatos"⟩ := by
  simp only [GenerateCatURLs]
  rw [if_pos he]

theorem genCat_output_nonempty (gen : Nat → Nat → String) (sched : List Nat)
    (count : Nat) (st : SvcState)
    (he : (runWorkers gen count (initBatch st.recentURLs) sched).urls ≠ []) :
    (GenerateCatURLs gen sched count st).output =
      ⟨(runWorkers gen count (initBatch st.recentURLs) sched).urls,
        st.batchCount + 1, none⟩ := by
  simp only [GenerateCatURLs]
  rw [if_neg he]

theorem genCat_success_batch (gen : Nat → Nat → String) (sched : List Nat)
    (count : Nat) (st : SvcState)
    (h : (GenerateCatURLs gen sched count st).output.error = none) :
    (GenerateCatURLs gen sched count st).output.batch = st.batchCount + 1 := by
  by_cases he : (runWorkers gen count (initBatch st.recentURLs) sched).urls = []
  · rw [genCat_output_empty gen sched count st he] at h
    exact absurd h (by simp)
  · rw [genCat_output_nonempty gen sched count st he]

theorem genCat_urls_sub (gen : Nat → Nat → String) (sched : List Nat)
    (count : Nat) (st : SvcState) {u : String}
    (hu : u ∈ (GenerateCatURLs gen sched count st).output.urls) :
    u ∈ (runWorkers gen count (initBatch st.recentURLs) sched).urls := by
  by_cases he : (runWorkers gen count (initBatch st.recentURLs) sched).urls = []
  · rw [genCat_output_empty gen sched count st he] at hu
    exact absurd hu (by simp)
  · rw [genCat_output_nonempty gen sched count st he] at hu
    exact hu

/-- C1, counterexample.  The claim "the addresses in the returned collection
are pairwise-distinct, and each address was absent from the cache at the
moment that worker admitted it" fails on the code: the membership check runs
under `RLock` and the insert under a separate `Lock`, so when two workers
synthesize the same candidate (same nanosecond timestamp and same random
salt) both can pass the check before either inserts.  Under the interleaving
check₀ check₁ insert₀ append₀ insert₁ append₁ the call succeeds and returns
the same address twice, and at the second admission the address was already
in the cache. -/
theorem c1_counterexample :
    (GenerateCatURLs (fun _ _ => "u") [0, 1, 0, 0, 1, 1] 2 ⟨∅, 0⟩).output.error
        = none ∧
    (GenerateCatURLs (fun _ _ => "u") [0, 1, 0, 0, 1, 1] 2 ⟨∅, 0⟩).output.urls
        = ["u", "u"] ∧
    ¬ (GenerateCatURLs (fun _ _ => "u") [0, 1, 0, 0, 1, 1] 2 ⟨∅, 0⟩).output.urls.Nodup ∧
    Completes (fun _ _ => "u") 2 ∅ [0, 1, 0, 0, 1, 1] := by
  refine ⟨rfl, rfl, by decide, by decide⟩

/-- C1, amended.  Every returned address was absent from the Recent-History
Cache at the moment of its (pre-insert) membership check — hence absent from
the cache the call started with — and is in the cache afterwards; and the
returned collection is pairwise-distinct provided no two worker attempts of
the batch synthesized the same address (the check and the insert are not one
atomic step, so only that coincidence can produce a duplicate). -/
theorem c1_amended_dedup :
    ∀ (gen : Nat → Nat → String) (sched : List Nat) (count : Nat) (st : SvcState),
      InjectiveCandidates gen count →
      Completes gen count st.recentURLs sched →
      (GenerateCatURLs gen sched count st).output.urls.Nodup ∧
      ∀ u, u ∈ (GenerateCatURLs gen sched count st).output.urls →
        u ∉ st.recentURLs ∧
        u ∈ (GenerateCatURLs gen sched count st).state.recentURLs := by
  intro gen sched count st hinj _
  have hD := runWorkers_invD gen count st.recentURLs sched hinj
  constructor
  · by_cases he : (runWorkers gen count (initBatch st.recentURLs) sched).urls = []
    · rw [genCat_output_empty gen sched count st he]
      exact List.nodup_nil
    · rw [genCat_output_nonempty gen sched count st he]
      exact hD.nodup
  · intro u hu
    have hu' := genCat_urls_sub gen sched count st hu
    obtain ⟨hc, hc0, -⟩ := hD.base.urlsOk u hu'
    exact ⟨hc0, by rw [genCat_state]; exact hc⟩

/-- C1 witness: a two-worker batch with pairwise-distinct candidates run to
completion; the theorem yields a duplicate-free result whose addresses were
fresh and are now cached. -/
theorem c1_witness :
    (GenerateCatURLs (fun w r => toString (3 * w + r)) [0, 0, 0, 1, 1, 1] 2
        ⟨∅, 0⟩).output.urls.Nodup ∧
    ("0" ∉ (∅ : Finset String) ∧
      "0" ∈ (GenerateCatURLs (fun w r => toString (3 * w + r)) [0, 0, 0, 1, 1, 1] 2
        ⟨∅, 0⟩).state.recentURLs) := by
  have h := c1_amended_dedup (fun w r => toString (3 * w + r)) [0, 0, 0, 1, 1, 1] 2
    ⟨∅, 0⟩ (by decide) (by decide)
  exact ⟨h.1, h.2 "0" (by decide)⟩

/-- C2, counterexample.  The claim promises a collection of "unique
addresses" on success, but the check-then-insert race lets one successful
call return the same address twice (two workers, identical candidates,
interleaved check/insert). -/
theorem c2_counterexample :
    (GenerateCatURLs (fun _ _ => "u") [0, 1, 0, 0, 1, 1] 2 ⟨∅, 1⟩).output.error
        = none ∧
    ¬ (GenerateCatURLs (fun _ _ => "u") [0, 1, 0, 0, 1, 1] 2 ⟨∅, 1⟩).output.urls.Nodup ∧
    Completes (fun _ _ => "u") 2 ∅ [0, 1, 0, 0, 1, 1] := by
  refine ⟨rfl, by decide, by decide⟩

/-- C2, amended.  `GenerateCatURLs count` errors exactly when the assembled
collection is empty; otherwise it returns a non-empty collection of at most
`count` addresses together with the batch number, and the error path carries
no partial data (uniqueness of the returned addresses holds only in the
absence of the candidate coincidence of the C1 counterexample). -/
theorem c2_amended_error_iff_empty :
    ∀ (gen : Nat → Nat → String) (sched : List Nat) (count : Nat) (st : SvcState),
      Completes gen count st.recentURLs sched →
      ((GenerateCatURLs gen sched count st).output.error ≠ none ↔
        (GenerateCatURLs gen sched count st).output.urls = []) ∧
      (GenerateCatURLs gen sched count st).output.urls.length ≤ count ∧
      ((GenerateCatURLs gen sched count st).output.error = none →
        (GenerateCatURLs gen sched count st).output.urls ≠ [] ∧
        (GenerateCatURLs gen sched count st).output.batch = st.batchCount + 1) ∧
      ((GenerateCatURLs gen sched count st).output.error ≠ none →
        (GenerateCatURLs gen sched count st).output.urls = [] ∧
        (GenerateCatURLs gen sched count st).output.batch = 0) := by
  intro gen sched count st _
  have hlen : (runWorkers gen count (initBatch st.recentURLs) sched).urls.length
      ≤ count := by
    rw [(runWorkers_inv gen count st.recentURLs sched).lenOk]
    calc ((Finset.range count).filter
          (fun w => (runWorkers gen count (initBatch st.recentURLs) sched).phases w
            = WPhase.doneOk)).card
        ≤ (Finset.range count).card := Finset.card_filter_le _ _
      _ = count := Finset.card_range count
  by_cases he : (runWorkers gen count (initBatch st.recentURLs) sched).urls = []
  · rw [genCat_output_empty gen sched count st he]
    refine ⟨by simp, by simp, by simp, fun _ => ⟨rfl, rfl⟩⟩
  · rw [genCat_output_nonempty gen sched count st he]
    exact ⟨by simp [he], hlen, fun _ => ⟨he, rfl⟩, by simp⟩

/-- C2 witness: a completed two-worker batch; the theorem yields success with
a non-empty collection of at most two addresses and batch number 1. -/
theorem c2_witness :
    ((GenerateCatURLs (fun w r => toString (3 * w + r)) [0, 0, 0, 1, 1, 1] 2
        ⟨∅, 0⟩).output.error ≠ none ↔
      (GenerateCatURLs (fun w r => toString (3 * w + r)) [0, 0, 0, 1, 1, 1] 2
        ⟨∅, 0⟩).output.urls = []) ∧
    (GenerateCatURLs (fun w r => toString (3 * w + r)) [0, 0, 0, 1, 1, 1] 2
        ⟨∅, 0⟩).output.urls.length ≤ 2 ∧
    ((GenerateCatURLs (fun w r => toString (3 * w + r)) [0, 0, 0, 1, 1, 1] 2
        ⟨∅, 0⟩).output.urls ≠ [] ∧
      (GenerateCatURLs (fun w r => toString (3 * w + r)) [0, 0, 0, 1, 1, 1] 2
        ⟨∅, 0⟩).output.batch = 1) := by
  have h := c2_amended_error_iff_empty (fun w r => toString (3 * w + r))
    [0, 0, 0, 1, 1, 1] 2 ⟨∅, 0⟩ (by decide)
  exact ⟨h.1, h.2.1, h.2.2.1 (by decide)⟩

/-- Counter bookkeeping over a sequence of `GenerateCatURLs` calls: the
counter grows by one per call, one output per call, and every successful
output's batch number is the counter value its own call produced. -/
theorem runCalls_spec :
    ∀ (specs : List CallSpec) (st : SvcState),
      (runCalls specs st).2.batchCount = st.batchCount + specs.length ∧
      (runCalls specs st).1.length = specs.length ∧
      (∀ i (hi : i < (runCalls specs st).1.length),
        ((runCalls specs st).1.get ⟨i, hi⟩).error = none →
        ((runCalls specs st).1.get ⟨i, hi⟩).batch = st.batchCount + i + 1) := by
  intro specs
  induction specs with
  | nil =>
    intro st
    exact ⟨rfl, rfl, fun i hi => absurd hi (by simp [runCalls])⟩
  | cons c rest ih =>
    intro st
    obtain ⟨ih1, ih2, ih3⟩ := ih (GenerateCatURLs c.gen c.sched c.count st).state
    have hb : (GenerateCatURLs c.gen c.sched c.count st).state.batchCount
        = st.batchCount + 1 := rfl
    refine ⟨?_, ?_, ?_⟩
    · show (runCalls rest (GenerateCatURLs c.gen c.sched c.count st).state).2.batchCount
        = st.batchCount + (rest.length + 1)
      rw [ih1, hb]
      omega
    · show (runCalls rest (GenerateCatURLs c.gen c.sched c.count st).state).1.length + 1
        = rest.length + 1
      rw [ih2]
    · intro i hi herr
      match i, hi with
      | 0, hi =>
        have : ((GenerateCatURLs c.gen c.sched c.count st).output).error = none := herr
        exact genCat_success_batch c.gen c.sched c.count st this
      | Nat.succ k, hi =>
        have hk : k < (runCalls rest
            (GenerateCatURLs c.gen c.sched c.count st).state).1.length := by
          have : Nat.succ k < (runCalls rest
              (GenerateCatURLs c.gen c.sched c.count st).state).1.length + 1 := hi
          omega
        have hgs : ((runCalls (c :: rest) st).1.get ⟨Nat.succ k, hi⟩)
            = ((runCalls rest
                (GenerateCatURLs c.gen c.sched c.count st).state).1.get ⟨k, hk⟩) := rfl
        have hrec := ih3 k hk herr
        rw [hb] at hrec
        rw [hgs, hrec]
        omega

/-- C3, counterexample.  The claim says every call "returns the resulting
value as the batch number", but a call whose workers all collide consumes
sequence number 1 yet returns batch number 0 (`return nil, 0, err`). -/
theorem c3_counterexample :
    (GenerateCatURLs (fun _ _ => "u") [0, 0, 0] 1 ⟨{"u"}, 0⟩).state.batchCount = 1 ∧
    (GenerateCatURLs (fun _ _ => "u") [0, 0, 0] 1 ⟨{"u"}, 0⟩).output.batch = 0 ∧
    (GenerateCatURLs (fun _ _ => "u") [0, 0, 0] 1 ⟨{"u"}, 0⟩).output.batch ≠ 1 ∧
    Completes (fun _ _ => "u") 1 {"u"} [0, 0, 0] := by
  exact ⟨rfl, by decide, by decide, by decide⟩

/-- C3, amended.  Every call to `GenerateCatURLs` increments the Batch
Sequence Counter by exactly one and nothing decrements it, so after any
sequence of calls the counter equals its prior value plus the number of
calls and `GetBatchCount` reflects that fully-assigned value; every
*successful* call returns the counter value it produced (prior value of its
call plus one), so batch numbers of successful calls are strictly increasing
across any sequence of calls, while a failed call returns 0 instead. -/
theorem c3_amended_counter_monotone :
    ∀ (specs : List CallSpec) (st : SvcState),
      (runCalls specs st).2.batchCount = st.batchCount + specs.length ∧
      GetBatchCount (runCalls specs st).2 = st.batchCount + specs.length ∧
      (runCalls specs st).1.length = specs.length ∧
      (∀ i (hi : i < (runCalls specs st).1.length),
        ((runCalls specs st).1.get ⟨i, hi⟩).error = none →
        ((runCalls specs st).1.get ⟨i, hi⟩).batch = st.batchCount + i + 1) ∧
      (∀ i j (hi : i < (runCalls specs st).1.length)
          (hj : j < (runCalls specs st).1.length), i < j →
        ((runCalls specs st).1.get ⟨i, hi⟩).error = none →
        ((runCalls specs st).1.get ⟨j, hj⟩).error = none →
        ((runCalls specs st).1.get ⟨i, hi⟩).batch
          < ((runCalls specs st).1.get ⟨j, hj⟩).batch) := by
  intro specs st
  obtain ⟨h1, h2, h3⟩ := runCalls_spec specs st
  refine ⟨h1, h1, h2, h3, ?_⟩
  intro i j hi hj hij hei hej
  rw [h3 i hi hei, h3 j hj hej]
  omega

/-- C3 witness: after two successful calls from counter 0 the counter is 2,
the calls returned batch numbers 1 and 2, and they are strictly increasing. -/
theorem c3_witness :
    (runCalls specsC3 ⟨∅, 0⟩).2.batchCount = 2 ∧
    GetBatchCount (runCalls specsC3 ⟨∅, 0⟩).2 = 2 ∧
    ((runCalls specsC3 ⟨∅, 0⟩).1.get ⟨0, by decide⟩).batch = 1 ∧
    ((runCalls specsC3 ⟨∅, 0⟩).1.get ⟨0, by decide⟩).batch
      < ((runCalls specsC3 ⟨∅, 0⟩).1.get ⟨1, by decide⟩).batch := by
  have h := c3_amended_counter_monotone specsC3 ⟨∅, 0⟩
  exact ⟨h.1, h.2.1, h.2.2.2.1 0 (by decide) (by decide),
    h.2.2.2.2 0 1 (by decide) (by decide) (by decide) (by decide) (by decide)⟩

/-- C4.  The increment-and-capture of the batch sequence number
(lines 103-106, guarded by `countMutex`) is modelled with each protected
statement as a separate atomic event; the mutex semantics alone force two
concurrent calls that both complete to report different batch numbers, under
every interleaving. -/
theorem c4_unique_batch_numbers :
    ∀ (c0 : Nat) (sched : List Nat),
      ((crun c0 sched).calls 0).phase = CPhase.done →
      ((crun c0 sched).calls 1).phase = CPhase.done →
      ((crun c0 sched).calls 0).cap ≠ ((crun c0 sched).calls 1).cap := by
  intro c0 sched h0 h1
  exact (crun_cinv c0 sched).capNe (by rw [h0]; rfl) (by rw [h1]; rfl)

/-- C4 witness: a contended interleaving in which call 1 repeatedly fails to
acquire the mutex while call 0 is inside the critical section; both complete
and their captured batch numbers differ. -/
theorem c4_witness :
    ((crun 0 [0, 1, 0, 1, 0, 1, 0, 1, 1, 1, 1]).calls 0).phase = CPhase.done ∧
    ((crun 0 [0, 1, 0, 1, 0, 1, 0, 1, 1, 1, 1]).calls 1).phase = CPhase.done ∧
    ((crun 0 [0, 1, 0, 1, 0, 1, 0, 1, 1, 1, 1]).calls 0).cap
      ≠ ((crun 0 [0, 1, 0, 1, 0, 1, 0, 1, 1, 1, 1]).calls 1).cap := by
  refine ⟨by decide, by decide, ?_⟩
  exact c4_unique_batch_numbers 0 [0, 1, 0, 1, 0, 1, 0, 1, 1, 1, 1]
    (by decide) (by decide)

/-- C5.  `cleanCache` is total and: a cache of more than 50 entries is
replaced by the empty set (the batch counter untouched); a cache of at most
50 entries is left completely unchanged. -/
theorem c5_clean_cache :
    ∀ st : SvcState,
      (50 < st.recentURLs.card →
        (cleanCache st).recentURLs = ∅ ∧
        (cleanCache st).batchCount = st.batchCount) ∧
      (st.recentURLs.card ≤ 50 → cleanCache st = st) := by
  intro st
  constructor
  · intro h
    unfold cleanCache
    rw [if_pos h]
    exact ⟨rfl, rfl⟩
  · intro h
    unfold cleanCache
    rw [if_neg (by omega)]

/-- C5 witness: evicting a 51-entry cache empties it and keeps the counter;
evicting a 1-entry cache changes nothing. -/
theorem c5_witness :
    (cleanCache ⟨bigCache, 7⟩).recentURLs = ∅ ∧
    (cleanCache ⟨bigCache, 7⟩).batchCount = 7 ∧
    cleanCache ⟨{"a"}, 3⟩ = ⟨{"a"}, 3⟩ := by
  have h1 := (c5_clean_cache ⟨bigCache, 7⟩).1 (by decide)
  have h2 := (c5_clean_cache ⟨{"a"}, 3⟩).2 (by decide)
  exact ⟨h1.1, h1.2, h2⟩

/-- C6.  The Reference Synthesizer always produces a reference: an entropy
failure yields the same reference as a zero salt, and for every timestamp
and salt the address is the fixed base address with the timestamp and salt
as query-style parameters while the identifier is the fixed prefix with the
same timestamp and salt. -/
theorem c6_synthesizer_total :
    ∀ (t : Int) (e : Option Nat),
      generateCatURL t none = generateCatURL t (some 0) ∧
      (generateCatURL t e).url =
        "https://cataas.com/cat" ++ "?timestamp=" ++ toString t ++ "&rand="
          ++ toString (e.getD 0) ∧
      (generateCatURL t e).id =
        "cat-" ++ toString t ++ "-" ++ toString (e.getD 0) ∧
      (generateCatURL t e).timestamp = t := by
  intro t e
  cases e <;> exact ⟨rfl, rfl, rfl, rfl⟩

/-- C7.  In every interleaving, a worker makes at most 3 synthesis attempts;
a worker that has admitted (phase `doneOk`) takes no further step; a worker
all of whose three candidates are already cached never admits; the result
length always equals the number of workers that admitted (so a never-admitting
worker contributes nothing); and a worker scheduled at least 5 times has
terminated. -/
theorem c7_retry_budget :
    ∀ (gen : Nat → Nat → String) (count : Nat) (cache0 : Finset String)
      (sched : List Nat) (wi : Nat),
      (runWorkers gen count (initBatch cache0) sched).tries wi ≤ 3 ∧
      ((runWorkers gen count (initBatch cache0) sched).phases wi = WPhase.doneOk →
        wstep gen count (runWorkers gen count (initBatch cache0) sched) wi
          = runWorkers gen count (initBatch cache0) sched) ∧
      ((∀ r, r < 3 → gen wi r ∈ cache0) →
        (runWorkers gen count (initBatch cache0) sched).phases wi ≠ WPhase.doneOk) ∧
      ((runWorkers gen count (initBatch cache0) sched).urls.length
        = ((Finset.range count).filter
            (fun w => (runWorkers gen count (initBatch cache0) sched).phases w
              = WPhase.doneOk)).card) ∧
      (wi < count → 5 ≤ sched.count wi →
        isTerminal ((runWorkers gen count (initBatch cache0) sched).phases wi)) := by
  intro gen count cache0 sched wi
  refine ⟨(runWorkers_inv gen count cache0 sched).triesOk wi, ?_, ?_,
    (runWorkers_inv gen count cache0 sched).lenOk, ?_⟩
  · intro h
    exact wstep_doneOk h
  · intro hall
    rcases run_allcollide hall sched with ⟨r, hph⟩ | hph <;> rw [hph] <;> simp
  · intro hlt h5
    exact run_terminal_of_count hlt sched (initBatch cache0)
      (init_inv gen count cache0) (by simpa [initBatch, rank] using h5)

/-- C7 witness: a worker facing a fully pre-seeded cache makes its 3 attempts
(all collisions), terminates in `doneFail` after 5 schedule slots, and the
result stays empty; a worker that admits takes no further step. -/
theorem c7_witness :
    (runWorkers (fun _ _ => "u") 1 (initBatch {"u"}) [0, 0, 0, 0, 0]).tries 0 ≤ 3 ∧
    (runWorkers (fun _ _ => "u") 1 (initBatch {"u"}) [0, 0, 0, 0, 0]).phases 0
      ≠ WPhase.doneOk ∧
    isTerminal ((runWorkers (fun _ _ => "u") 1 (initBatch {"u"}) [0, 0, 0, 0, 0]).phases 0) ∧
    (runWorkers (fun _ _ => "u") 1 (initBatch {"u"}) [0, 0, 0, 0, 0]).urls.length
      = ((Finset.range 1).filter
          (fun w => (runWorkers (fun _ _ => "u") 1 (initBatch {"u"})
            [0, 0, 0, 0, 0]).phases w = WPhase.doneOk)).card ∧
    wstep (fun _ _ => "a") 1 (runWorkers (fun _ _ => "a") 1 (initBatch ∅) [0, 0, 0]) 0
      = runWorkers (fun _ _ => "a") 1 (initBatch ∅) [0, 0, 0] := by
  have h1 := c7_retry_budget (fun _ _ => "u") 1 {"u"} [0, 0, 0, 0, 0] 0
  have h2 := c7_retry_budget (fun _ _ => "a") 1 (∅ : Finset String) [0, 0, 0] 0
  exact ⟨h1.1, h1.2.2.1 (by decide), h1.2.2.2.2 (by decide) (by decide),
    h1.2.2.2.1, h2.2.1 (by decide)⟩

/-- C8.  After the workers complete, the detached eviction sweep
(`go s.cleanCache()`) is spawned exactly when the captured batch number
(prior counter + 1) is a multiple of 10 — this holds on the error path too,
since the check precedes the empty test — and the state the call returns is
the workers' cache with no eviction applied (the call does not wait for the
sweep) together with the incremented counter. -/
theorem c8_eviction_trigger :
    ∀ (gen : Nat → Nat → String) (sched : List Nat) (count : Nat) (st : SvcState),
      ((GenerateCatURLs gen sched count st).evictionTriggered = true ↔
        (st.batchCount + 1) % 10 = 0) ∧
      (GenerateCatURLs gen sched count st).state.recentURLs
        = (runWorkers gen count (initBatch st.recentURLs) sched).cache ∧
      (GenerateCatURLs gen sched count st).state.batchCount = st.batchCount + 1 := by
  intro gen sched count st
  refine ⟨?_, rfl, rfl⟩
  show ((st.batchCount + 1) % 10 == 0) = true ↔ (st.batchCount + 1) % 10 = 0
  exact beq_iff_eq

/-- C9.  A call that fails with the batch-empty error has nevertheless
incremented the Batch Sequence Counter by one, and it returns 0 as the batch
number rather than the sequence number it consumed. -/
theorem c9_failed_call_consumes_sequence :
    ∀ (gen : Nat → Nat → String) (sched : List Nat) (count : Nat) (st : SvcState),
      (GenerateCatURLs gen sched count st).output.error ≠ none →
      (GenerateCatURLs gen sched count st).state.batchCount = st.batchCount + 1 ∧
      (GenerateCatURLs gen sched count st).output.batch = 0 := by
  intro gen sched count st herr
  refine ⟨rfl, ?_⟩
  by_cases he : (runWorkers gen count (initBatch st.recentURLs) sched).urls = []
  · rw [genCat_output_empty gen sched count st he]
  · rw [genCat_output_nonempty gen sched count st he] at herr
    simp at herr

/-- C9 witness: a one-worker call against a cache already holding its only
candidate fails, yet the counter moves from 5 to 6 while the returned batch
number is 0. -/
theorem c9_witness :
    (GenerateCatURLs (fun _ _ => "u") [0, 0, 0] 1 ⟨{"u"}, 5⟩).state.batchCount = 6 ∧
    (GenerateCatURLs (fun _ _ => "u") [0, 0, 0] 1 ⟨{"u"}, 5⟩).output.batch = 0 :=
  c9_failed_call_consumes_sequence (fun _ _ => "u") [0, 0, 0] 1 ⟨{"u"}, 5⟩ (by decide)

/-- C10.  `GetCats` count handling: an absent parameter and any parameter
that fails to parse, parses non-positive, or parses above 10 all yield the
default 5 (no clamping to the nearest bound); a parsed value in 1..10 is
passed through exactly. -/
theorem c10_count_param :
    parseCount "" = 5 ∧
    (∀ s, atoi s = none → parseCount s = 5) ∧
    (∀ s (p : Int), atoi s = some p → ¬(0 < p ∧ p ≤ 10) → parseCount s = 5) ∧
    (∀ s (p : Int), atoi s = some p → 0 < p → p ≤ 10 → parseCount s = p) := by
  have hempty : atoi "" = none := rfl
  refine ⟨rfl, ?_, ?_, ?_⟩
  · intro s hs
    by_cases he : s = ""
    · subst he
      rfl
    · unfold parseCount
      rw [if_neg he, hs]
  · intro s p hs hnp
    have he : s ≠ "" := by
      intro e
      subst e
      rw [hempty] at hs
      exact Option.noConfusion hs
    unfold parseCount
    rw [if_neg he, hs]
    exact if_neg hnp
  · intro s p hs h1 h2
    have he : s ≠ "" := by
      intro e
      subst e
      rw [hempty] at hs
      exact Option.noConfusion hs
    unfold parseCount
    rw [if_neg he, hs]
    exact if_pos ⟨h1, h2⟩

/-- C10 witness: "7" passes through; garbage, out-of-range and non-positive
values fall back to the default 5 (not to a clamped bound). -/
theorem c10_witness :
    parseCount "7" = 7 ∧ parseCount "abc" = 5 ∧ parseCount "11" = 5 ∧
    parseCount "-3" = 5 ∧ parseCount "0" = 5 := by
  exact ⟨c10_count_param.2.2.2 "7" 7 (by decide) (by decide) (by decide),
    c10_count_param.2.1 "abc" (by decide),
    c10_count_param.2.2.1 "11" 11 (by decide) (by decide),
    c10_count_param.2.2.1 "-3" (-3) (by decide) (by decide),
    c10_count_param.2.2.1 "0" 0 (by decide) (by decide)⟩

end Meownder
